import Mathlib

/-!
Verification of the ldap2pg core: config normalizers
(`internal/config/normalizers.go`), the role options codec, the postgres
object model (`internal/postgres/objects.go`) and the role reconciler
(`internal/roles/roles.go`).

Go's dynamically typed YAML values (`interface\x7b\x7d`) are embedded as the
inductive `Value`; Go maps (`map[string]interface\x7b\x7d`) are embedded as
insertion-ordered association lists with unique keys, with `m[k] = v`
replacing in place or appending, `delete` removing the entry, and lookup
returning the bound value.  Fallible Go functions returning `(T, error)`
are embedded as `Except`.
-/

namespace Ldap2pg

/-- Role options record, fields as read off `internal/roles/roles.go`
(`NewRoleFromRow`): seven booleans and the integer connection limit. -/
structure RoleOptions where
  Super : Bool
  CreateDB : Bool
  CreateRole : Bool
  Inherit : Bool
  CanLogin : Bool
  Replication : Bool
  ByPassRLS : Bool
  ConnLimit : Int
deriving DecidableEq

/-- Embedding of Go's `interface\x7b\x7d` values as used by the normalizers:
null, booleans, integers, strings, `[]string`, `[]interface\x7b\x7d`,
`map[string]interface\x7b\x7d`, plus role-option records (which the reconciler
stores in log argument lists). -/
inductive Value where
  | nullV
  | boolV (b : Bool)
  | intV (n : Int)
  | strV (s : String)
  | strListV (l : List String)
  | listV (l : List Value)
  | mapV (m : List (String × Value))
  | optionsV (o : RoleOptions)

/-- A Go `map[string]interface\x7b\x7d`, embedded as an insertion-ordered
association list with unique keys. -/
abbrev SMap := List (String × Value)

/-- Lookup in a Go map: the value bound to `k`, if present. -/
def findKey : SMap → String → Option Value
  | [], _ => none
  | (k', v') :: t, k => if k = k' then some v' else findKey t k

/-- Go `m[k] = v`: replace the binding of `k` in place, or append a new one. -/
def setKey : SMap → String → Value → SMap
  | [], k, v => [(k, v)]
  | (k', v') :: t, k, v => if k = k' then (k, v) :: t else (k', v') :: setKey t k v

/-- Go `delete(m, k)`: remove the binding of `k`. -/
def eraseKey : SMap → String → SMap
  | [], _ => []
  | (k', v') :: t, k => if k = k' then t else (k', v') :: eraseKey t k

/-- The key list of a map (Go `maps.Keys`, in representation order). -/
def keysOf (m : SMap) : List String := m.map Prod.fst

/-- Errors of the normalizers: `KeyConflict\x7bKey, Conflict\x7d`,
`ParseError\x7bMessage, Value\x7d`, plain `errors.New` messages, and the
spurious-key error naming the offending keys and the allowed set. -/
inductive NormErr where
  | keyConflict (key conflict : String)
  | parse (message : String) (value : Value)
  | message (s : String)
  | spuriousKeys (keys allowed : List String)

/-- Modelled from the spec: `CheckSpuriousKeys` (declared in the config
package but not under `src/`) rejects any key of the map outside the
allow-list, naming the offending keys and the allowed set
("any defaulted/merged map rejects keys outside its context's allow-list,
naming offenders and the allowed set"). -/
def checkSpuriousKeys (m : SMap) (allowed : List String) : Except NormErr Unit :=
  let offenders := (keysOf m).filter (fun k => !(allowed.contains k))
  if offenders = [] then .ok () else .error (.spuriousKeys offenders allowed)

/-- Splitting a character list at a separator, accumulator of the current
field in reverse.  Auxiliary for `splitOnChar`. -/
def splitOnCharAux (sep : Char) : List Char → List Char → List String
  | [], acc => [String.mk acc.reverse]
  | c :: cs, acc =>
    if c = sep then String.mk acc.reverse :: splitOnCharAux sep cs []
    else splitOnCharAux sep cs (c :: acc)

/-- Model of Go `strings.Split(s, sep)` for a one-character separator:
every occurrence of `sep` separates fields, adjacent separators produce
empty fields, and the empty string yields `[""]`. -/
def splitOnChar (sep : Char) (s : String) : List String :=
  splitOnCharAux sep s.data []

/-- Go `strings.HasPrefix(token, "NO")`. -/
def hasPrefixNO (s : String) : Bool :=
  match s.data with
  | 'N' :: 'O' :: _ => true
  | _ => false

/-- Go `strings.TrimPrefix(token, "NO")`. -/
def trimPrefixNO (s : String) : String :=
  match s.data with
  | 'N' :: 'O' :: rest => String.mk rest
  | _ => s

/-- The default role options map of `NormalizeRoleOptions`
(`normalizers.go:306-315`), in the source literal's order. -/
def roleOptionsDefaults : SMap :=
  [("SUPERUSER", .boolV false),
   ("INHERIT", .boolV true),
   ("CREATEROLE", .boolV false),
   ("CREATEDB", .boolV false),
   ("LOGIN", .boolV false),
   ("REPLICATION", .boolV false),
   ("BYPASSRLS", .boolV false),
   ("CONNECTION LIMIT", .intV (-1))]

/-- `knownKeys := maps.Keys(value)` taken on the defaults map. -/
def roleOptionsKnownKeys : List String := keysOf roleOptionsDefaults

/-- `NormalizeRoleOptions` (`normalizers.go:303-338`): normal form of role
options is a map with SQL token keys.  A string is split on spaces and each
non-empty token sets its `NO`-trimmed key to the absence of the `NO`
prefix; a map is copied over the defaults; `nil` returns the defaults
unchecked; anything else is a parse error; string and map results are
checked for spurious keys. -/
def NormalizeRoleOptions (yaml : Value) : Except NormErr SMap :=
  let value := roleOptionsDefaults
  match yaml with
  | .strV s =>
    let value := (splitOnChar ' ' s).foldl
      (fun value token =>
        if token = "" then value
        else setKey value (trimPrefixNO token) (.boolV (!(hasPrefixNO token))))
      value
    match checkSpuriousKeys value roleOptionsKnownKeys with
    | .ok _ => .ok value
    | .error e => .error e
  | .mapV m =>
    let value := m.foldl (fun value kv => setKey value kv.1 kv.2) value
    match checkSpuriousKeys value roleOptionsKnownKeys with
    | .ok _ => .ok value
    | .error e => .error e
  | .nullV => .ok value
  | other => .error (.parse "bad type" other)

/-- `NormalizeList` (`normalizers.go:50-56`): a `[]interface\x7b\x7d` passes
through, any other value (null included) is wrapped into a one-element
list. -/
def NormalizeList (yaml : Value) : List Value :=
  match yaml with
  | .listV l => l
  | other => [other]

/-- `NormalizeAlias` (`normalizers.go:31-48`): nothing to do when the alias
key is absent; a key conflict when both alias and canonical key are
present; otherwise the alias binding is deleted and its value bound to the
canonical key. -/
def NormalizeAlias (yaml : SMap) (key aliasKey : String) : Except NormErr SMap :=
  match findKey yaml aliasKey with
  | none => .ok yaml
  | some value =>
    if (findKey yaml key).isSome then
      .error (.keyConflict key aliasKey)
    else
      .ok (setKey (eraseKey yaml aliasKey) key value)

/-- The loop body of `DuplicateRoleRules` (`normalizers.go:292-297`): copy
every binding of the original rule except `names`. -/
def dupStep (rule : SMap) (kv : String × Value) : SMap :=
  if kv.1 = "names" then rule else setKey rule kv.1 kv.2

/-- `DuplicateRoleRules` (`normalizers.go:288-301`): one rule per name in
`yaml["names"]`, each built as `\x7b"name": name\x7d` plus every non-`names`
binding of the original rule.  The Go code type-asserts
`yaml["names"].([]string)` and would panic otherwise; the embedding
returns `none` in that case. -/
def DuplicateRoleRules (yaml : SMap) : Option (List SMap) :=
  match findKey yaml "names" with
  | some (.strListV names) =>
    some (names.map (fun name => yaml.foldl dupStep (setKey [] "name" (.strV name))))
  | _ => none

/-- Modelled from the spec: the `String()` method of `RoleOptions` (declared
in the config package but not under `src/`), the "space-separated SQL-token
string" encoding: "token presence = true, `NO`-prefixed token = false,
unlisted keys keep defaults".  Every boolean field is listed as its token
(`NO`-prefixed when false, in the defaults map's order), and a connection
limit differing from the default −1 is listed as the SQL tokens
`CONNECTION LIMIT <n>`. -/
def RoleOptions.string (o : RoleOptions) : String :=
  (if o.Super then "SUPERUSER" else "NOSUPERUSER") ++ " " ++
  (if o.Inherit then "INHERIT" else "NOINHERIT") ++ " " ++
  (if o.CreateRole then "CREATEROLE" else "NOCREATEROLE") ++ " " ++
  (if o.CreateDB then "CREATEDB" else "NOCREATEDB") ++ " " ++
  (if o.CanLogin then "LOGIN" else "NOLOGIN") ++ " " ++
  (if o.Replication then "REPLICATION" else "NOREPLICATION") ++ " " ++
  (if o.ByPassRLS then "BYPASSRLS" else "NOBYPASSRLS") ++
  (if o.ConnLimit = -1 then "" else " CONNECTION LIMIT " ++ toString o.ConnLimit)

/-- The mapping encoding of a `RoleOptions` value: the eight canonical keys
bound to the record's fields (spec §3, encoding (b); key-to-field
correspondence as in `NewRoleFromRow`, `roles.go:30-46`). -/
def RoleOptions.toMap (o : RoleOptions) : SMap :=
  [("SUPERUSER", .boolV o.Super),
   ("INHERIT", .boolV o.Inherit),
   ("CREATEROLE", .boolV o.CreateRole),
   ("CREATEDB", .boolV o.CreateDB),
   ("LOGIN", .boolV o.CanLogin),
   ("REPLICATION", .boolV o.Replication),
   ("BYPASSRLS", .boolV o.ByPassRLS),
   ("CONNECTION LIMIT", .intV o.ConnLimit)]

/-- Doubling of double quotes inside an identifier, auxiliary for
`pgxSanitize`. -/
def sanitizeChars : List Char → List Char
  | [] => []
  | c :: cs =>
    if c = '"' then '"' :: '"' :: sanitizeChars cs else c :: sanitizeChars cs

/-- Model of `pgx.Identifier\x7br.Name\x7d.Sanitize()` (external collaborator):
the name wrapped in double quotes, inner double quotes doubled. -/
def pgxSanitize (s : String) : String :=
  String.mk ('"' :: (sanitizeChars s.data ++ ['"']))

/-- `true` on space and tab, the characters the dedent margin is made of. -/
def isBlankChar (c : Char) : Bool := c = ' ' || c = '\t'

/-- Whether `p` is a literal prefix of `l`, auxiliary for `dedent`. -/
def leadPrefixB : List Char → List Char → Bool
  | [], _ => true
  | _ :: _, [] => false
  | a :: ps, b :: ls => a = b && leadPrefixB ps ls

/-- The leading run of spaces and tabs of a line, auxiliary for `dedent`. -/
def leadingBlanks (s : String) : String := String.mk (s.data.takeWhile isBlankChar)

/-- Model of `dedent.Dedent` (external collaborator,
`github.com/lithammer/dedent`): whitespace-only lines are emptied, the
margin is the longest common space/tab prefix of the lines with content
(empty as soon as two indents are not prefix-comparable), and the margin
is stripped from every line carrying it. -/
def dedent (text : String) : String :=
  let lines := splitOnChar '\n' text
  let lines := lines.map
    (fun l => if !l.data.isEmpty && l.data.all isBlankChar then "" else l)
  let indents := (lines.filter (fun l => l.data.any (fun c => !isBlankChar c))).map leadingBlanks
  let margin := match indents with
    | [] => ""
    | first :: rest =>
      rest.foldl
        (fun margin ind =>
          if leadPrefixB margin.data ind.data then margin
          else if leadPrefixB ind.data margin.data then ind
          else "")
        first
  if margin = "" then String.intercalate "\n" lines
  else
    String.intercalate "\n"
      (lines.map (fun l =>
        if leadPrefixB margin.data l.data then String.mk (l.data.drop margin.data.length)
        else l))

/-- `postgres.SyncQuery`, fields as used throughout `roles.go`: description,
log fields, target database name (empty = default connection), SQL text,
bound parameters (spec §3). -/
structure SyncQuery where
  Description : String
  LogArgs : List Value
  Database : String
  Query : String
  QueryArgs : List Value

/-- `roles.Role` (`roles.go:10-15`). -/
structure Role where
  Name : String
  Comment : String
  Parents : List String
  Options : RoleOptions

/-- `Role.Alter` (`roles.go:61-75`): one ALTER statement when the wanted
options differ from the current ones, nothing otherwise.  Channel sends
are embedded as the emitted list of queries, in send order. -/
def Role.alter (r : Role) (wanted : Role) : List SyncQuery :=
  let identifier := pgxSanitize r.Name
  if wanted.Options ≠ r.Options then
    [{ Description := "Alter options."
       LogArgs := [.strV "role", .strV r.Name,
                   .strV "current", .optionsV r.Options,
                   .strV "wanted", .optionsV wanted.Options]
       Database := ""
       Query := "ALTER ROLE " ++ identifier ++ " WITH " ++ wanted.Options.string ++ ";"
       QueryArgs := [] }]
  else []

/-- The terminate-sessions query of `Role.Drop` (`roles.go:99-110`). -/
def terminateSessionsQuery (name : String) : SyncQuery :=
  { Description := "Terminate running sessions."
    LogArgs := [.strV "role", .strV name]
    Database := ""
    Query := dedent "\n\t\tSELECT pg_terminate_backend(pid)\n\t\tFROM pg_catalog.pg_stat_activity\n\t\tWHERE usename = $1;\n\t\t"
    QueryArgs := [.strV name] }

/-- The per-database reassign-and-drop-owned query of `Role.Drop`
(`roles.go:111-120`). -/
def reassignOwnedQuery (name database : String) : SyncQuery :=
  { Description := "Reassign objects and purge ACL."
    LogArgs := [.strV "role", .strV name, .strV "database", .strV database]
    Database := database
    Query := dedent ("\n\t\t\tREASSIGN OWNED BY " ++ pgxSanitize name ++ " TO CURRENT_USER;\n\t\t\tDROP OWNED BY " ++ pgxSanitize name ++ ";")
    QueryArgs := [] }

/-- The final drop-role query of `Role.Drop` (`roles.go:121-127`). -/
def dropRoleQuery (name : String) : SyncQuery :=
  { Description := "Drop role."
    LogArgs := [.strV "role", .strV name]
    Database := ""
    Query := "DROP ROLE " ++ pgxSanitize name ++ ";"
    QueryArgs := [] }

/-- `Role.Drop` (`roles.go:97-128`): terminate sessions, then one
reassign/drop-owned query per database in the given order, then drop the
role.  Channel sends are embedded as the emitted list, in send order. -/
def Role.drop (r : Role) (databases : List String) : List SyncQuery :=
  terminateSessionsQuery r.Name
    :: (databases.map (fun database => reassignOwnedQuery r.Name database)
        ++ [dropRoleQuery r.Name])

/-- `postgres.Schema` (`objects.go:36-40`). -/
structure Schema where
  Name : String
  Owner : String
  Creators : List String

/-- `RowToSchema` (`objects.go:42-52`): a row is scanned positionally into
the schema's string fields according to its column count; one column sets
the name, two set name and owner, anything else is the cardinality
error.  Unscanned fields keep Go's zero values. -/
def RowToSchema (row : List String) : Except String Schema :=
  match row with
  | [name] => .ok { Name := name, Owner := "", Creators := [] }
  | [name, owner] => .ok { Name := name, Owner := owner, Creators := [] }
  | _ => .error "wrong number of returned columns"

/-- `postgres.Database` (`objects.go:11-15`). -/
structure Database where
  Name : String
  Owner : String
  Schemas : List (String × Schema)

/-- `postgres.DBMap` (`objects.go:16`), embedded like the other Go maps. -/
abbrev DBMap := List (String × Database)

/-- Byte-wise lexicographic comparison of character lists, the order Go
compares strings with (UTF-8 byte order coincides with codepoint order). -/
def lexLe : List Char → List Char → Bool
  | [], _ => true
  | _ :: _, [] => false
  | a :: as, b :: bs =>
    if a < b then true else if b < a then false else lexLe as bs

/-- Go's `a <= b` on strings. -/
def strLe (a b : String) : Bool := lexLe a.data b.data

/-- `strLe` as a relation, for `List.insertionSort`. -/
def strLeP (a b : String) : Prop := strLe a b = true

instance : DecidableRel strLeP :=
  fun a b => inferInstanceAs (Decidable (strLe a b = true))

/-- `DBMap.SyncOrder` (`objects.go:18-28`): the map's keys sorted ascending
(`slices.Sort`), every non-default name kept in order, the default name
appended last. -/
def syncOrder (m : DBMap) (defaultName : String) : List String :=
  let names := List.insertionSort strLeP (m.map Prod.fst)
  names.filter (fun name => defaultName != name) ++ [defaultName]

/-! Lemmas about the Go-map embedding. -/

theorem keysOf_nil : keysOf [] = [] := rfl

theorem keysOf_cons (k : String) (v : Value) (t : SMap) :
    keysOf ((k, v) :: t) = k :: keysOf t := rfl

theorem findKey_setKey_self (m : SMap) (k : String) (v : Value) :
    findKey (setKey m k v) k = some v := by
  induction m with
  | nil => simp [setKey, findKey]
  | cons kv t ih =>
    obtain ⟨k', v'⟩ := kv
    by_cases h : k = k'
    · simp [setKey, findKey, h]
    · simp [setKey, findKey, h, ih]

theorem findKey_setKey_ne (m : SMap) {k j : String} (v : Value) (h : j ≠ k) :
    findKey (setKey m k v) j = findKey m j := by
  induction m with
  | nil => simp [setKey, findKey, h]
  | cons kv t ih =>
    obtain ⟨k', v'⟩ := kv
    by_cases hk : k = k'
    · subst hk
      simp [setKey, findKey, h, ih]
    · by_cases hj : j = k'
      · simp [setKey, findKey, hk, hj]
      · simp [setKey, findKey, hk, hj, ih]

theorem findKey_eq_none_of_not_mem (m : SMap) (k : String) (h : k ∉ keysOf m) :
    findKey m k = none := by
  induction m with
  | nil => rfl
  | cons kv t ih =>
    obtain ⟨k', v'⟩ := kv
    rw [keysOf_cons, List.mem_cons] at h
    push_neg at h
    simp [findKey, h.1, ih h.2]

theorem findKey_eraseKey_ne (m : SMap) {k j : String} (h : j ≠ k) :
    findKey (eraseKey m k) j = findKey m j := by
  induction m with
  | nil => rfl
  | cons kv t ih =>
    obtain ⟨k', v'⟩ := kv
    by_cases hk : k = k'
    · subst hk
      simp [eraseKey, findKey, h]
    · by_cases hj : j = k'
      · simp [eraseKey, findKey, hk, hj]
      · simp [eraseKey, findKey, hk, hj, ih]

theorem findKey_eraseKey_self (m : SMap) (k : String) (h : (keysOf m).Nodup) :
    findKey (eraseKey m k) k = none := by
  induction m with
  | nil => rfl
  | cons kv t ih =>
    obtain ⟨k', v'⟩ := kv
    rw [keysOf_cons, List.nodup_cons] at h
    by_cases hk : k = k'
    · subst hk
      simp [eraseKey, findKey_eq_none_of_not_mem t _ h.1]
    · simp [eraseKey, findKey, hk, ih h.2]

theorem keysOf_setKey (m : SMap) (k : String) (v : Value) :
    keysOf (setKey m k v) =
      if k ∈ keysOf m then keysOf m else keysOf m ++ [k] := by
  induction m with
  | nil => simp [setKey, keysOf]
  | cons kv t ih =>
    obtain ⟨k', v'⟩ := kv
    by_cases h : k = k'
    · simp [setKey, keysOf_cons, h]
    · rw [setKey, if_neg h, keysOf_cons, keysOf_cons, ih]
      by_cases hm : k ∈ keysOf t
      · simp [hm, h]
      · simp [hm, h]

/-- The key-shape invariant of `NormalizeRoleOptions` folds: the keys are the
base key list followed by extra keys, none of which belongs to the base. -/
def KeysExtend (base : List String) (m : SMap) : Prop :=
  ∃ extras, keysOf m = base ++ extras ∧ ∀ e ∈ extras, e ∉ base

theorem keysExtend_setKey {base : List String} {m : SMap} (h : KeysExtend base m)
    (k : String) (v : Value) : KeysExtend base (setKey m k v) := by
  obtain ⟨extras, hkeys, hdisj⟩ := h
  rw [KeysExtend]
  rw [keysOf_setKey]
  by_cases hm : k ∈ keysOf m
  · exact ⟨extras, by rw [if_pos hm, hkeys], hdisj⟩
  · refine ⟨extras ++ [k], ?_, ?_⟩
    · rw [if_neg hm, hkeys, List.append_assoc]
    · intro e he
      rcases List.mem_append.mp he with he | he
      · exact hdisj e he
      · rw [List.mem_singleton] at he
        subst he
        intro hbase
        exact hm (hkeys ▸ List.mem_append_left extras hbase)

theorem keysExtend_foldl {α : Type} {base : List String} (f : SMap → α → SMap)
    (hf : ∀ m a, f m a = m ∨ ∃ k v, f m a = setKey m k v)
    (l : List α) (m : SMap) (h : KeysExtend base m) :
    KeysExtend base (l.foldl f m) := by
  induction l generalizing m with
  | nil => exact h
  | cons a t ih =>
    rw [List.foldl_cons]
    refine ih (f m a) ?_
    rcases hf m a with hid | ⟨k, v, hset⟩
    · rwa [hid]
    · rw [hset]
      exact keysExtend_setKey h k v

theorem checkSpuriousKeys_ok_mem {m : SMap} {allowed : List String}
    (h : checkSpuriousKeys m allowed = .ok ()) :
    ∀ k ∈ keysOf m, k ∈ allowed := by
  intro k hk
  rw [checkSpuriousKeys] at h
  by_cases hfil : (keysOf m).filter (fun k => !(allowed.contains k)) = []
  · have := List.filter_eq_nil_iff.mp hfil k hk
    simp only [Bool.not_eq_true', Bool.not_eq_false] at this
    exact List.elem_iff.mp this
  · rw [if_neg hfil] at h
    exact Except.noConfusion h

theorem keysExtend_closed {base : List String} {m : SMap}
    (h : KeysExtend base m) (hsub : ∀ k ∈ keysOf m, k ∈ base) :
    keysOf m = base := by
  obtain ⟨extras, hkeys, hdisj⟩ := h
  match extras, hkeys, hdisj with
  | [], hkeys, _ => rw [hkeys, List.append_nil]
  | e :: _, hkeys, hdisj =>
    exact absurd
      (hsub e (hkeys ▸ List.mem_append_right base (List.mem_cons_self e _)))
      (hdisj e (List.mem_cons_self e _))

/-! Per-claim theorems. -/

/-- C3 (amended: eight canonical keys, not nine): for every input on which
`NormalizeRoleOptions` succeeds, the returned map carries exactly the
canonical keys SUPERUSER, INHERIT, CREATEROLE, CREATEDB, LOGIN,
REPLICATION, BYPASSRLS and CONNECTION LIMIT, no more and no fewer. -/
theorem normalizeRoleOptions_keys (y : Value) (m : SMap)
    (h : NormalizeRoleOptions y = .ok m) :
    keysOf m = ["SUPERUSER", "INHERIT", "CREATEROLE", "CREATEDB", "LOGIN",
                "REPLICATION", "BYPASSRLS", "CONNECTION LIMIT"] := by
  have hbase : KeysExtend roleOptionsKnownKeys roleOptionsDefaults :=
    ⟨[], by rw [List.append_nil]; rfl, by simp⟩
  cases y with
  | strV s =>
    simp only [NormalizeRoleOptions] at h
    split at h
    · next u heq =>
      injection h with h
      subst h
      cases u
      exact keysExtend_closed
        (keysExtend_foldl _
          (fun mm token => by
            by_cases ht : token = ""
            · exact Or.inl (by rw [if_pos ht])
            · exact Or.inr ⟨_, _, by rw [if_neg ht]⟩)
          _ _ hbase)
        (checkSpuriousKeys_ok_mem heq)
    · next e heq => exact Except.noConfusion h
  | mapV mm =>
    simp only [NormalizeRoleOptions] at h
    split at h
    · next u heq =>
      injection h with h
      subst h
      cases u
      exact keysExtend_closed
        (keysExtend_foldl (fun (v : SMap) (kv : String × Value) => setKey v kv.1 kv.2)
          (fun _ kv => Or.inr ⟨kv.1, kv.2, rfl⟩) _ _ hbase)
        (checkSpuriousKeys_ok_mem heq)
    · next e heq => exact Except.noConfusion h
  | nullV =>
    simp only [NormalizeRoleOptions] at h
    injection h with h
    subst h
    rfl
  | boolV b => exact Except.noConfusion h
  | intV n => exact Except.noConfusion h
  | strListV l => exact Except.noConfusion h
  | listV l => exact Except.noConfusion h
  | optionsV o => exact Except.noConfusion h

/-- C3, witness: the null input succeeds and its key list is the eight
canonical keys. -/
theorem normalizeRoleOptions_keys_witness :
    keysOf roleOptionsDefaults =
      ["SUPERUSER", "INHERIT", "CREATEROLE", "CREATEDB", "LOGIN",
       "REPLICATION", "BYPASSRLS", "CONNECTION LIMIT"] :=
  normalizeRoleOptions_keys .nullV roleOptionsDefaults rfl

/-- C3, counterexample to the claim as stated: a successful normalization
(null input) returns a map with eight keys, not nine. -/
theorem normalizeRoleOptions_nine_counterexample :
    NormalizeRoleOptions .nullV = .ok roleOptionsDefaults
    ∧ (keysOf roleOptionsDefaults).length = 8
    ∧ (keysOf roleOptionsDefaults).length ≠ 9 :=
  ⟨rfl, rfl, by decide⟩

/-- C4: `NormalizeAlias` errors with a key conflict naming both keys when
canonical key and alias are both present, and on an alias-only mapping it
moves the alias binding to the canonical key: afterwards the alias is
absent, the canonical key holds the alias's former value, and every other
key is untouched. -/
theorem normalizeAlias_spec (m : SMap) (key aliasKey : String)
    (hnd : (keysOf m).Nodup) :
    ((findKey m aliasKey).isSome → (findKey m key).isSome →
       NormalizeAlias m key aliasKey = .error (.keyConflict key aliasKey))
    ∧ (∀ v, findKey m aliasKey = some v → findKey m key = none →
        ∃ m2, NormalizeAlias m key aliasKey = .ok m2
          ∧ findKey m2 aliasKey = none
          ∧ findKey m2 key = some v
          ∧ ∀ j, j ≠ key → j ≠ aliasKey → findKey m2 j = findKey m j) := by
  constructor
  · intro ha hk
    obtain ⟨v, hv⟩ := Option.isSome_iff_exists.mp ha
    rw [NormalizeAlias, hv]
    simp [hk]
  · intro v hv hk
    have hne : aliasKey ≠ key := by
      intro he
      rw [he, hk] at hv
      exact Option.noConfusion hv
    refine ⟨setKey (eraseKey m aliasKey) key v, ?_, ?_, ?_, ?_⟩
    · rw [NormalizeAlias, hv]
      simp [hk]
    · rw [findKey_setKey_ne _ v hne, findKey_eraseKey_self m aliasKey hnd]
    · exact findKey_setKey_self _ _ _
    · intro j hjk hja
      rw [findKey_setKey_ne _ v hjk, findKey_eraseKey_ne m hja]

/-- C4, witness: on `\x7brole: x\x7d` the alias `role` moves to `roles`, and on
`\x7broles: y, role: x\x7d` the conflict error names both keys. -/
theorem normalizeAlias_spec_witness :
    (∃ m2, NormalizeAlias [("role", .strV "x")] "roles" "role" = .ok m2
      ∧ findKey m2 "role" = none
      ∧ findKey m2 "roles" = some (.strV "x")
      ∧ ∀ j, j ≠ "roles" → j ≠ "role" →
          findKey m2 j = findKey [("role", .strV "x")] j)
    ∧ NormalizeAlias [("roles", .strV "y"), ("role", .strV "x")] "roles" "role"
        = .error (.keyConflict "roles" "role") :=
  ⟨(normalizeAlias_spec [("role", .strV "x")] "roles" "role" (by decide)).2
      (.strV "x") rfl rfl,
   (normalizeAlias_spec [("roles", .strV "y"), ("role", .strV "x")] "roles" "role"
      (by decide)).1 rfl rfl⟩

/-- C5, counterexample to the claim as stated: `NormalizeList` does not map
null to the empty list; it wraps it. -/
theorem normalizeList_null_counterexample :
    NormalizeList .nullV ≠ [] ∧ NormalizeList .nullV = [.nullV] :=
  ⟨fun h => List.cons_ne_nil _ _ h, rfl⟩

/-- C5 (amended: null is wrapped like any other non-list value, it does not
become the empty list): `NormalizeList` passes a list through unchanged and
wraps any non-list value — null included — into a one-element list
containing it. -/
theorem normalizeList_spec (v : Value) :
    (∀ l, v = .listV l → NormalizeList v = l)
    ∧ ((∀ l, v ≠ .listV l) → NormalizeList v = [v]) := by
  constructor
  · intro l hl
    subst hl
    rfl
  · intro h
    cases v with
    | listV l => exact absurd rfl (h l)
    | nullV => rfl
    | boolV b => rfl
    | intV n => rfl
    | strV s => rfl
    | strListV l => rfl
    | mapV mm => rfl
    | optionsV o => rfl

/-- C5, witness: a scalar is wrapped, a list passes through. -/
theorem normalizeList_spec_witness :
    NormalizeList (.strV "alice") = [.strV "alice"]
    ∧ NormalizeList (.listV [.strV "a", .strV "b"]) = [.strV "a", .strV "b"] :=
  ⟨(normalizeList_spec (.strV "alice")).2 (fun _ h => Value.noConfusion h),
   (normalizeList_spec (.listV [.strV "a", .strV "b"])).1 _ rfl⟩

/-- C8: `options: "SUPERUSER"` yields the canonical map with SUPERUSER set
and every other key at its default. -/
theorem roleOptions_superuser_default :
    NormalizeRoleOptions (.strV "SUPERUSER") =
      .ok [("SUPERUSER", .boolV true),
           ("INHERIT", .boolV true),
           ("CREATEROLE", .boolV false),
           ("CREATEDB", .boolV false),
           ("LOGIN", .boolV false),
           ("REPLICATION", .boolV false),
           ("BYPASSRLS", .boolV false),
           ("CONNECTION LIMIT", .intV (-1))] := rfl

/-- C9: `RowToSchema` scans the name from a one-column row, name and owner
from a two-column row, and rejects any other column count with the
cardinality error, scanning nothing. -/
theorem rowToSchema_spec (row : List String) :
    (∀ name, row = [name] →
      RowToSchema row = .ok { Name := name, Owner := "", Creators := [] })
    ∧ (∀ name owner, row = [name, owner] →
      RowToSchema row = .ok { Name := name, Owner := owner, Creators := [] })
    ∧ (row.length ≠ 1 → row.length ≠ 2 →
      RowToSchema row = .error "wrong number of returned columns") := by
  refine ⟨?_, ?_, ?_⟩
  · intro name h
    subst h
    rfl
  · intro name owner h
    subst h
    rfl
  · intro h1 h2
    match row with
    | [] => rfl
    | [a] => exact absurd rfl h1
    | [a, b] => exact absurd rfl h2
    | a :: b :: c :: t => rfl

/-- C9, witness: concrete rows of one, two and zero columns. -/
theorem rowToSchema_spec_witness :
    RowToSchema ["public"] = .ok { Name := "public", Owner := "", Creators := [] }
    ∧ RowToSchema ["public", "alice"]
        = .ok { Name := "public", Owner := "alice", Creators := [] }
    ∧ RowToSchema [] = .error "wrong number of returned columns" :=
  ⟨(rowToSchema_spec ["public"]).1 "public" rfl,
   (rowToSchema_spec ["public", "alice"]).2.1 "public" "alice" rfl,
   (rowToSchema_spec []).2.2 (by decide) (by decide)⟩

theorem dupStep_fold_names (l : SMap) (acc : SMap) :
    findKey (l.foldl dupStep acc) "names" = findKey acc "names" := by
  induction l generalizing acc with
  | nil => rfl
  | cons kv t ih =>
    obtain ⟨k, w⟩ := kv
    rw [List.foldl_cons]
    by_cases hk : k = "names"
    · rw [show dupStep acc (k, w) = acc from by rw [dupStep, if_pos hk], ih]
    · rw [show dupStep acc (k, w) = setKey acc k w from by rw [dupStep, if_neg hk],
        ih, findKey_setKey_ne _ w (fun he => hk he.symm)]

theorem dupStep_fold_of_none (l : SMap) (acc : SMap) (j : String)
    (h : findKey l j = none) :
    findKey (l.foldl dupStep acc) j = findKey acc j := by
  induction l generalizing acc with
  | nil => rfl
  | cons kv t ih =>
    obtain ⟨k, w⟩ := kv
    rw [findKey] at h
    by_cases hj : j = k
    · rw [if_pos hj] at h
      exact Option.noConfusion h
    · rw [if_neg hj] at h
      rw [List.foldl_cons]
      by_cases hk : k = "names"
      · rw [show dupStep acc (k, w) = acc from by rw [dupStep, if_pos hk], ih _ h]
      · rw [show dupStep acc (k, w) = setKey acc k w from by rw [dupStep, if_neg hk],
          ih _ h, findKey_setKey_ne _ w hj]

theorem dupStep_fold_of_some (l : SMap) (acc : SMap) (j : String) (v : Value)
    (hnd : (keysOf l).Nodup) (hj : findKey l j = some v) (hjn : j ≠ "names") :
    findKey (l.foldl dupStep acc) j = some v := by
  induction l generalizing acc with
  | nil => exact Option.noConfusion hj
  | cons kv t ih =>
    obtain ⟨k, w⟩ := kv
    rw [keysOf_cons, List.nodup_cons] at hnd
    rw [findKey] at hj
    rw [List.foldl_cons]
    by_cases hjk : j = k
    · subst hjk
      rw [if_pos rfl] at hj
      injection hj with hj
      rw [← hj]
      rw [show dupStep acc (j, w) = setKey acc j w from by rw [dupStep, if_neg hjn],
        dupStep_fold_of_none t _ j (findKey_eq_none_of_not_mem t j hnd.1),
        findKey_setKey_self]
    · rw [if_neg hjk] at hj
      by_cases hk : k = "names"
      · rw [show dupStep acc (k, w) = acc from by rw [dupStep, if_pos hk]]
        exact ih _ hnd.2 hj
      · rw [show dupStep acc (k, w) = setKey acc k w from by rw [dupStep, if_neg hk]]
        exact ih _ hnd.2 hj

/-- C7: `DuplicateRoleRules` on a normalized rule whose `names` list has N
elements returns exactly N rules, one per name in list order; each has no
`names` key, carries its single name under `name`, and carries every other
binding of the original rule unchanged. -/
theorem duplicateRoleRules_spec (yaml : SMap) (names : List String)
    (hnd : (keysOf yaml).Nodup)
    (hnames : findKey yaml "names" = some (.strListV names))
    (hname : findKey yaml "name" = none) :
    ∃ rules, DuplicateRoleRules yaml = some rules
      ∧ rules.length = names.length
      ∧ ∀ i r, rules.get? i = some r →
          findKey r "names" = none
          ∧ (∀ n, names.get? i = some n → findKey r "name" = some (.strV n))
          ∧ ∀ k, k ≠ "name" → k ≠ "names" → findKey r k = findKey yaml k := by
  refine ⟨_, by rw [DuplicateRoleRules, hnames], by rw [List.length_map], ?_⟩
  intro i r hr
  rw [List.get?_map] at hr
  cases hn : names.get? i with
  | none =>
    rw [hn] at hr
    exact Option.noConfusion hr
  | some n =>
    rw [hn] at hr
    injection hr with hr
    subst hr
    dsimp only
    refine ⟨?_, ?_, ?_⟩
    · rw [dupStep_fold_names]
      rfl
    · intro n' hn'
      injection hn' with hn'
      subst hn'
      rw [dupStep_fold_of_none yaml _ "name" hname]
      rfl
    · intro k hk1 hk2
      cases hks : findKey yaml k with
      | some v =>
        rw [dupStep_fold_of_some yaml _ k v hnd hks hk2]
      | none =>
        rw [dupStep_fold_of_none yaml _ k hks]
        rw [show findKey (setKey [] "name" (.strV n)) k = none from by
          simp [setKey, findKey, hk1]]

/-- C7, witness: the spec's example rule with names `["a","b","c"]` and
shared comment and options expands to three single-name rules. -/
theorem duplicateRoleRules_spec_witness :
    ∃ rules,
      DuplicateRoleRules
          [("names", .strListV ["a", "b", "c"]),
           ("comment", .strV "x"),
           ("options", .strV "SUPERUSER")]
        = some rules
      ∧ rules.length = (["a", "b", "c"] : List String).length
      ∧ ∀ i r, rules.get? i = some r →
          findKey r "names" = none
          ∧ (∀ n, (["a", "b", "c"] : List String).get? i = some n →
              findKey r "name" = some (.strV n))
          ∧ ∀ k, k ≠ "name" → k ≠ "names" →
              findKey r k =
                findKey
                  [("names", .strListV ["a", "b", "c"]),
                   ("comment", .strV "x"),
                   ("options", .strV "SUPERUSER")] k :=
  duplicateRoleRules_spec
    [("names", .strListV ["a", "b", "c"]),
     ("comment", .strV "x"),
     ("options", .strV "SUPERUSER")]
    ["a", "b", "c"] (by decide) rfl rfl

/-- C1, counterexample to the claim as stated: with an explicit non-default
connection limit (10), the SQL-token string does not decode back to the
original mapping — `NormalizeRoleOptions` splits on spaces, so the tokens
`CONNECTION`, `LIMIT` and `10` are spurious keys and decoding fails. -/
theorem roleOptions_roundtrip_connlimit_counterexample :
    NormalizeRoleOptions
        (.strV (RoleOptions.string ⟨false, false, false, true, false, false, false, 10⟩))
      ≠ .ok (RoleOptions.toMap ⟨false, false, false, true, false, false, false, 10⟩) := by
  intro h
  have hfalse : (NormalizeRoleOptions
      (.strV (RoleOptions.string
        ⟨false, false, false, true, false, false, false, 10⟩))).isOk = false := rfl
  rw [h] at hfalse
  exact Bool.noConfusion hfalse

set_option maxRecDepth 10000 in
/-- C1 (amended: the round-trip holds for arbitrary combinations of the
seven boolean fields with the connection limit at its default −1, which the
string encoding omits; an explicit non-default connection limit cannot
round-trip, since decoding splits the string on spaces and never sets the
`CONNECTION LIMIT` key): encoding a `RoleOptions` value to the SQL-token
string and decoding it back through `NormalizeRoleOptions` yields the
mapping encoding of the original value. -/
theorem roleOptions_string_roundtrip_bools (b1 b2 b3 b4 b5 b6 b7 : Bool) :
    NormalizeRoleOptions (.strV (RoleOptions.string ⟨b1, b2, b3, b4, b5, b6, b7, -1⟩))
      = .ok (RoleOptions.toMap ⟨b1, b2, b3, b4, b5, b6, b7, -1⟩) := by
  cases b1 <;> cases b2 <;> cases b3 <;> cases b4 <;>
    cases b5 <;> cases b6 <;> cases b7 <;> rfl

/-- C6: for a current and a wanted role of the same name, `Role.Alter`
emits exactly one ALTER ROLE statement — with the sanitized name and the
SQL-token encoding of the wanted options — when the options differ, and no
statement at all when they are equal. -/
theorem role_alter_spec (r wanted : Role) (_hn : wanted.Name = r.Name) :
    (wanted.Options ≠ r.Options →
      Role.alter r wanted =
        [{ Description := "Alter options."
           LogArgs := [.strV "role", .strV r.Name,
                       .strV "current", .optionsV r.Options,
                       .strV "wanted", .optionsV wanted.Options]
           Database := ""
           Query := "ALTER ROLE " ++ pgxSanitize r.Name ++ " WITH "
                      ++ wanted.Options.string ++ ";"
           QueryArgs := [] }])
    ∧ (wanted.Options = r.Options → Role.alter r wanted = []) := by
  constructor
  · intro h
    simp [Role.alter, h]
  · intro h
    simp [Role.alter, h]

/-- C6, witness: a wanted role differing only in SUPERUSER yields the one
ALTER statement; the identical role yields none. -/
theorem role_alter_spec_witness :
    (Role.alter ⟨"alice", "", [], ⟨false, false, false, true, false, false, false, -1⟩⟩
        ⟨"alice", "", [], ⟨true, false, false, true, false, false, false, -1⟩⟩
      = [{ Description := "Alter options."
           LogArgs := [.strV "role", .strV "alice",
                       .strV "current",
                       .optionsV ⟨false, false, false, true, false, false, false, -1⟩,
                       .strV "wanted",
                       .optionsV ⟨true, false, false, true, false, false, false, -1⟩]
           Database := ""
           Query := "ALTER ROLE " ++ pgxSanitize "alice" ++ " WITH "
                      ++ RoleOptions.string ⟨true, false, false, true, false, false, false, -1⟩ ++ ";"
           QueryArgs := [] }])
    ∧ Role.alter ⟨"alice", "", [], ⟨false, false, false, true, false, false, false, -1⟩⟩
        ⟨"alice", "", [], ⟨false, false, false, true, false, false, false, -1⟩⟩ = [] :=
  ⟨(role_alter_spec
      ⟨"alice", "", [], ⟨false, false, false, true, false, false, false, -1⟩⟩
      ⟨"alice", "", [], ⟨true, false, false, true, false, false, false, -1⟩⟩ rfl).1
      (by decide),
   (role_alter_spec
      ⟨"alice", "", [], ⟨false, false, false, true, false, false, false, -1⟩⟩
      ⟨"alice", "", [], ⟨false, false, false, true, false, false, false, -1⟩⟩ rfl).2 rfl⟩

/-! Order properties of the Go string comparison, for `slices.Sort`. -/

theorem lexLe_total : ∀ (as bs : List Char),
    lexLe as bs = true ∨ lexLe bs as = true := by
  intro as
  induction as with
  | nil => intro bs; exact Or.inl rfl
  | cons a as ih =>
    intro bs
    cases bs with
    | nil => exact Or.inr rfl
    | cons b bs =>
      rcases lt_trichotomy a b with h | h | h
      · left
        simp only [lexLe]
        rw [if_pos h]
      · subst h
        simp only [lexLe, if_neg (lt_irrefl a)]
        exact ih bs
      · right
        simp only [lexLe]
        rw [if_pos h]

theorem lexLe_trans : ∀ (as bs cs : List Char),
    lexLe as bs = true → lexLe bs cs = true → lexLe as cs = true := by
  intro as
  induction as with
  | nil => intros; rfl
  | cons a as ih =>
    intro bs cs h1 h2
    cases bs with
    | nil =>
      simp only [lexLe] at h1
      exact Bool.noConfusion h1
    | cons b bs =>
      cases cs with
      | nil =>
        simp only [lexLe] at h2
        exact Bool.noConfusion h2
      | cons c cs =>
        simp only [lexLe] at h1 h2 ⊢
        rcases lt_trichotomy a b with hab | hab | hab
        · rcases lt_trichotomy b c with hbc | hbc | hbc
          · rw [if_pos (lt_trans hab hbc)]
          · subst hbc
            rw [if_pos hab]
          · rw [if_neg (asymm hbc), if_pos hbc] at h2
            exact Bool.noConfusion h2
        · subst hab
          rw [if_neg (lt_irrefl a)] at h1
          rcases lt_trichotomy a c with hac | hac | hac
          · rw [if_pos hac]
          · subst hac
            rw [if_neg (lt_irrefl a)] at h2 ⊢
            rw [if_neg (lt_irrefl a)] at h1 h2 ⊢
            exact ih bs cs h1 h2
          · rw [if_neg (asymm hac), if_pos hac] at h2
            exact Bool.noConfusion h2
        · rw [if_neg (asymm hab), if_pos hab] at h1
          exact Bool.noConfusion h1

instance : IsTotal String strLeP :=
  ⟨fun a b => lexLe_total a.data b.data⟩

instance : IsTrans String strLeP :=
  ⟨fun a b c h1 h2 => lexLe_trans a.data b.data c.data h1 h2⟩

/-- C10: `DBMap.SyncOrder` returns the ascending-sorted key list with the
default name removed, followed by the default name; the prefix is sorted
and free of the default name, so the default name appears exactly once and
last; and when the default name is not a key the output is one element
longer than the map. -/
theorem syncOrder_spec (m : DBMap) (d : String) :
    syncOrder m d
      = (List.insertionSort strLeP (m.map Prod.fst)).filter (fun n => d != n) ++ [d]
    ∧ List.Sorted strLeP
        ((List.insertionSort strLeP (m.map Prod.fst)).filter (fun n => d != n))
    ∧ d ∉ (List.insertionSort strLeP (m.map Prod.fst)).filter (fun n => d != n)
    ∧ (syncOrder m d).getLast? = some d
    ∧ (syncOrder m d).count d = 1
    ∧ (d ∉ m.map Prod.fst → (syncOrder m d).length = m.length + 1) := by
  have hperm := List.perm_insertionSort strLeP (m.map Prod.fst)
  have hsorted := List.sorted_insertionSort strLeP (m.map Prod.fst)
  have hnotmem :
      d ∉ (List.insertionSort strLeP (m.map Prod.fst)).filter (fun n => d != n) := by
    intro hmem
    have hm2 := (List.mem_filter.mp hmem).2
    simp at hm2
  refine ⟨rfl, hsorted.filter _, hnotmem, ?_, ?_, ?_⟩
  · exact List.getLast?_concat _
  · show (((List.insertionSort strLeP (m.map Prod.fst)).filter (fun n => d != n))
        ++ [d]).count d = 1
    rw [List.count_append, List.count_eq_zero.mpr hnotmem]
    simp
  · intro hd
    show (((List.insertionSort strLeP (m.map Prod.fst)).filter (fun n => d != n))
        ++ [d]).length = m.length + 1
    rw [List.length_append,
      List.filter_eq_self.mpr
        (fun a ha => bne_iff_ne.mpr
          (fun he => hd (by rw [he]; exact hperm.subset ha))),
      hperm.length_eq, List.length_map]
    rfl

/-- C10, witness: a one-database map whose default name is not a key. -/
theorem syncOrder_spec_witness :
    (syncOrder [("app", { Name := "app", Owner := "o", Schemas := [] })] "postgres").length
      = 2 :=
  (syncOrder_spec [("app", { Name := "app", Owner := "o", Schemas := [] })]
    "postgres").2.2.2.2.2 (by decide)

/-- C2: `Role.Drop` over a database list produced by `DBMap.SyncOrder`
emits, in this exact order and each exactly once (the emitted list has no
duplicates): the terminate-sessions query carrying the role name as a
bound parameter, one reassign-and-drop-owned query per database in list
order — each targeted at its database — and the drop-role query. -/
theorem role_drop_order (r : Role) (m : DBMap) (d : String)
    (hnd : (m.map Prod.fst).Nodup) :
    Role.drop r (syncOrder m d)
      = terminateSessionsQuery r.Name
        :: ((syncOrder m d).map (fun db => reassignOwnedQuery r.Name db)
            ++ [dropRoleQuery r.Name])
    ∧ (Role.drop r (syncOrder m d)).Nodup
    ∧ (terminateSessionsQuery r.Name).QueryArgs = [.strV r.Name]
    ∧ ∀ db ∈ syncOrder m d, (reassignOwnedQuery r.Name db).Database = db := by
  have hdbs : (syncOrder m d).Nodup := by
    have hperm := List.perm_insertionSort strLeP (m.map Prod.fst)
    refine List.Nodup.append ((hperm.symm.nodup hnd).filter _)
      (List.nodup_singleton d) ?_
    intro x hx hxd
    rw [List.mem_singleton] at hxd
    subst hxd
    have hm2 := (List.mem_filter.mp hx).2
    simp at hm2
  refine ⟨rfl, ?_, rfl, fun db _ => rfl⟩
  rw [Role.drop, List.nodup_cons]
  constructor
  · intro hmem
    rcases List.mem_append.mp hmem with h | h
    · rcases List.mem_map.mp h with ⟨db, _, he⟩
      exact absurd (congrArg SyncQuery.Description he)
        (show "Reassign objects and purge ACL." ≠ "Terminate running sessions."
          by decide)
    · rw [List.mem_singleton] at h
      exact absurd (congrArg SyncQuery.Description h)
        (show "Terminate running sessions." ≠ "Drop role." by decide)
  · refine List.Nodup.append
      (hdbs.map (fun x y hxy => congrArg SyncQuery.Database hxy))
      (List.nodup_singleton _) ?_
    intro x hx hxd
    rw [List.mem_singleton] at hxd
    subst hxd
    rcases List.mem_map.mp hx with ⟨db, _, he⟩
    exact absurd (congrArg SyncQuery.Description he)
      (show "Reassign objects and purge ACL." ≠ "Drop role." by decide)

/-- Concrete database map for the drop-ordering witness: managed databases
`app` and `postgres`. -/
def dropWitnessDB : DBMap :=
  [("app", { Name := "app", Owner := "o", Schemas := [] }),
   ("postgres", { Name := "postgres", Owner := "o", Schemas := [] })]

/-- Concrete current-only role for the drop-ordering witness. -/
def dropWitnessRole : Role :=
  { Name := "bob", Comment := "", Parents := [],
    Options := ⟨false, false, false, true, false, false, false, -1⟩ }

/-- C2, witness: dropping a current-only role across `\x7bapp, postgres\x7d`
with `postgres` default yields terminate, reassign on `app`, reassign on
`postgres`, drop-role, in order. -/
theorem role_drop_order_witness :
    Role.drop dropWitnessRole (syncOrder dropWitnessDB "postgres")
      = terminateSessionsQuery "bob"
        :: ((syncOrder dropWitnessDB "postgres").map
              (fun db => reassignOwnedQuery "bob" db)
            ++ [dropRoleQuery "bob"])
    ∧ syncOrder dropWitnessDB "postgres" = ["app", "postgres"] :=
  ⟨(role_drop_order dropWitnessRole dropWitnessDB "postgres" (by decide)).1, rfl⟩

end Ldap2pg
